import Mathlib

/-!
Verification of the RAG chatbot engine (documentProcessor, vectorService,
and the App-level retrieval pipeline).

Modelling conventions:
* JS strings are modelled as `List Char`; `text.substring(i, j)` becomes
  `(text.drop i).take (j - i)`.
* JS `Map` objects are modelled as insertion-ordered association lists with
  `getA` (lookup of the first matching key) and `setA` (replace the value at
  the first matching key, or append a fresh entry).
* JS floating-point numbers are modelled as real numbers (`Math.sqrt` as
  `Real.sqrt`, `Math.log` as `Real.log`); purely integral or exactly
  representable arithmetic (the newline-density test) is modelled over `ℚ`.
* `Array.prototype.sort` is stable (ES2019), modelled by `List.mergeSort`.
-/

namespace Rag

/-- A token produced by the tokenizer. -/
abbrev Tok := List Char

/-- `documentProcessor.ts`: `export type ContentType = 'narrative' | 'atomic'`. -/
inductive ContentType where
  | narrative
  | atomic
deriving DecidableEq, Repr

/-- `types.ts`: the `Chunk` interface (text as `List Char`). -/
structure Chunk where
  source : String
  chunkIndex : Nat
  text : List Char
  metadata : Option ContentType
deriving DecidableEq, Repr

/-- `types.ts`: the `Document` interface. -/
structure Document where
  name : String
  type : String
  size : Nat
deriving DecidableEq, Repr

/-! ### Association-list model of JS `Map` -/

/-- Lookup in a JS `Map`: value at the first entry whose key matches. -/
def getA {K V : Type} [DecidableEq K] : List (K × V) → K → Option V
  | [], _ => none
  | p :: ps, k => if p.1 = k then some p.2 else getA ps k

/-- `Map.set`: replace the value at the first matching key (keeping its
position), or append a fresh entry at the end. -/
def setA {K V : Type} [DecidableEq K] : List (K × V) → K → V → List (K × V)
  | [], k, v => [(k, v)]
  | p :: ps, k, v => if p.1 = k then (k, v) :: ps else p :: setA ps k v

theorem getA_setA_self {K V : Type} [DecidableEq K] (m : List (K × V)) (k : K) (v : V) :
    getA (setA m k v) k = some v := by
  induction m with
  | nil => simp [setA, getA]
  | cons p ps ih =>
    by_cases h : p.1 = k
    · simp [setA, getA, h]
    · simp [setA, getA, h, ih]

theorem getA_setA_ne {K V : Type} [DecidableEq K] (m : List (K × V)) {k k' : K} (v : V)
    (h : k' ≠ k) : getA (setA m k' v) k = getA m k := by
  induction m with
  | nil => simp [setA, getA, h]
  | cons p ps ih =>
    by_cases hp : p.1 = k'
    · simp [setA, getA, hp, h]
    · by_cases hk : p.1 = k
      · simp [setA, getA, hp, hk, Ne.symm h]
      · simp [setA, getA, hp, hk, ih]

/-! ### Tokenizer (`vectorService.ts`, `tokenize`) -/

/-- A character matched by the JS regex class `\w` (`[A-Za-z0-9_]`). -/
def isWordChar (c : Char) : Bool := c.isAlpha || c.isDigit || c = '_'

/-- An ASCII character matched by the JS regex class `\s`. -/
def isSpaceChar (c : Char) : Bool :=
  c = ' ' || c = '\t' || c = '\n' || c = '\r' || c = Char.ofNat 11 || c = Char.ofNat 12

/-- Split a character list into its maximal runs of non-space characters
(`split(/\s+/)` followed by dropping empty fragments). `acc` holds the
current run, reversed. -/
def splitWsAux : List Char → List Char → List Tok
  | [], acc => if acc.isEmpty then [] else [acc.reverse]
  | c :: cs, acc =>
    if isSpaceChar c then
      if acc.isEmpty then splitWsAux cs [] else acc.reverse :: splitWsAux cs []
    else splitWsAux cs (c :: acc)

/-- `tokenize`: lowercase, strip characters that are neither word nor space
characters (the regex `[^\w\s]`), split on whitespace, keep nonempty words. -/
def tokenize (text : List Char) : List Tok :=
  splitWsAux ((text.map Char.toLower).filter (fun c => isWordChar c || isSpaceChar c)) []

/-! ### Content analysis and chunking (`documentProcessor.ts`) -/

/-- `NARRATIVE_CHUNK_CONFIG = { size: 800, overlap: 80 }`. -/
def NARRATIVE_CHUNK_CONFIG : Nat × Nat := (800, 80)

/-- `ATOMIC_CHUNK_CONFIG = { size: 400, overlap: 40 }`. -/
def ATOMIC_CHUNK_CONFIG : Nat × Nat := (400, 40)

/-- `NEWLINE_DENSITY_THRESHOLD = 0.03`. -/
def NEWLINE_DENSITY_THRESHOLD : ℚ := 3 / 100

/-- `analyzeContentType`: empty text is narrative; otherwise compare the
newline density against the threshold. -/
def analyzeContentType (text : List Char) : ContentType :=
  if text.length = 0 then .narrative
  else if ((text.count '\n' : ℚ) / (text.length : ℚ)) > NEWLINE_DENSITY_THRESHOLD then .atomic
  else .narrative

/-- The `while` loop of `intelligentChunking`, parametrised by the
configuration. Each iteration pushes the chunk spanning
`[index, min (index+size) text.length)` and advances by `size - overlap`;
if the advance would not make progress the loop breaks after the push.
(`index + size - overlap` is ℕ-truncated subtraction; the JS value can be
negative there, but in that case both sides break before using it, since
`next ≤ index` iff `size ≤ overlap` in either arithmetic.) -/
def chunkLoop (text : List Char) (src : String) (ct : ContentType)
    (size overlap : Nat) (index chunkIndex : Nat) : List Chunk :=
  if _h : index < text.length then
    let stop := min (index + size) text.length
    let c : Chunk := ⟨src, chunkIndex, (text.drop index).take (stop - index), some ct⟩
    let next := index + size - overlap
    if _hn : next ≤ index then [c]
    else c :: chunkLoop text src ct size overlap next (chunkIndex + 1)
  else []
termination_by text.length - index
decreasing_by simp_wf; omega

/-- `intelligentChunking`: pick the configuration from the analyzed content
type and run the sliding-window loop from offset 0, chunk index 0. -/
def intelligentChunking (text : List Char) (sourceName : String) :
    List Chunk × ContentType :=
  let contentType := analyzeContentType text
  let config := match contentType with
    | .narrative => NARRATIVE_CHUNK_CONFIG
    | .atomic => ATOMIC_CHUNK_CONFIG
  (chunkLoop text sourceName contentType config.1 config.2 0 0, contentType)

example : analyzeContentType [] = .narrative := by norm_num [analyzeContentType]
example : analyzeContentType ('\n' :: "abc".data) = .atomic := by
  have h : List.count '\n' ('\n' :: "abc".data) = 1 := by decide
  norm_num [analyzeContentType, NEWLINE_DENSITY_THRESHOLD, h]
example :
    chunkLoop "AAAA".data "doc" .narrative 3 1 0 0 =
      [⟨"doc", 0, "AAA".data, some .narrative⟩, ⟨"doc", 1, "AA".data, some .narrative⟩] := by
  rw [chunkLoop]; norm_num
  rw [chunkLoop]; norm_num
  rw [chunkLoop]; norm_num
example : tokenize "Cat, dog!".data = ["cat".data, "dog".data] := by decide

/-! ### TF-IDF (`vectorService.ts`) -/

/-- `new Set(tokenize(chunk.text))`: the distinct tokens in first-occurrence
order (a JS `Set` iterates in insertion order). -/
def uniqueTerms (ts : List Tok) : List Tok :=
  ts.foldl (fun acc t => if t ∈ acc then acc else acc ++ [t]) []

/-- The document-frequency pass of `calculateIdf`: for every chunk, bump the
counter of each of its distinct terms. -/
def docFrequency (chunks : List Chunk) : List (Tok × Nat) :=
  chunks.foldl
    (fun m c => (uniqueTerms (tokenize c.text)).foldl
      (fun m t => setA m t ((getA m t).getD 0 + 1)) m) []

/-- `calculateIdf`: empty corpus gives the empty map; otherwise each term of
the document-frequency map gets `log((N+1)/(df+1)) + 1`. -/
noncomputable def calculateIdf (chunks : List Chunk) : List (Tok × ℝ) :=
  if chunks.length = 0 then []
  else (docFrequency chunks).map
    (fun p => (p.1, Real.log (((chunks.length : ℝ) + 1) / ((p.2 : ℝ) + 1)) + 1))

/-- `vectorizeWithTfidf`: term frequencies of the tokens, normalized by the
token count and scaled by the IDF score (0 for terms missing from the IDF
map). -/
noncomputable def vectorizeWithTfidf (text : List Char) (idfMap : List (Tok × ℝ)) :
    List (Tok × ℝ) :=
  let tokens := tokenize text
  if tokens.length = 0 then []
  else
    let termFrequency : List (Tok × Nat) :=
      tokens.foldl (fun m t => setA m t ((getA m t).getD 0 + 1)) []
    termFrequency.map
      (fun p => (p.1, ((p.2 : ℝ) / (tokens.length : ℝ)) * ((getA idfMap p.1).getD 0)))

/-! ### Cosine similarity (`vectorService.ts`) -/

/-- A TF-IDF vector: a JS `Map` from token to weight. -/
abbrev Vec := List (Tok × ℝ)

/-- The key set of a vector. -/
def keysOf (v : Vec) : Finset Tok := (v.map Prod.fst).toFinset

/-- `vec.get(key) || 0`. -/
noncomputable def getVal (v : Vec) (k : Tok) : ℝ := (getA v k).getD 0

/-- The `dotProduct` accumulation of `cosineSimilarity` over `allKeys`
(the JS `Set` union of both key sets; real addition is commutative and
associative, so the sum is taken over the `Finset` union). -/
noncomputable def dotProduct (a b : Vec) : ℝ :=
  ∑ k ∈ keysOf a ∪ keysOf b, getVal a k * getVal b k

/-- The accumulated sum of squared entry values (`magnitudeA` before the
`Math.sqrt`). -/
noncomputable def sumSq (v : Vec) : ℝ := (v.map (fun p => p.2 * p.2)).sum

/-- `Math.sqrt` of the summed squares. -/
noncomputable def magnitude (v : Vec) : ℝ := Real.sqrt (sumSq v)

/-- `cosineSimilarity`: 0 when either magnitude is 0, the normalized dot
product otherwise. -/
noncomputable def cosineSimilarity (a b : Vec) : ℝ :=
  if magnitude a = 0 ∨ magnitude b = 0 then 0
  else dotProduct a b / (magnitude a * magnitude b)

/-! ### App-level retrieval and ingestion (`App.tsx`) -/

/-- `getChunkId`. -/
def getChunkId (c : Chunk) : String := c.source ++ "_" ++ toString c.chunkIndex

/-- The score `findRelevantChunks` assigns to a chunk: 0 when the chunk's
vector is missing from the vector map, otherwise the cosine similarity of
the query vector against the stored chunk vector. -/
noncomputable def chunkScore (idfMap : List (Tok × ℝ)) (vecs : List (String × Vec))
    (query : List Char) (c : Chunk) : ℝ :=
  match getA vecs (getChunkId c) with
  | none => 0
  | some v => cosineSimilarity (vectorizeWithTfidf query idfMap) v

/-- The sort comparator `(a, b) => b.score - a.score`: a scored chunk sorts
no later than another exactly when its score is no smaller (descending
order). -/
noncomputable def scoreLE (x y : Chunk × ℝ) : Bool := decide (y.2 ≤ x.2)

/-- `findRelevantChunks`: score every chunk, sort descending by score with
the stable ES2019 `Array.prototype.sort` (modelled by the stable
`List.mergeSort`), keep scores above 0.01, return at most the top 3. -/
noncomputable def findRelevantChunks (chunks : List Chunk) (idfMap : List (Tok × ℝ))
    (vecs : List (String × Vec)) (query : List Char) : List Chunk :=
  if chunks.length = 0 ∨ vecs.length = 0 ∨ idfMap.length = 0 then []
  else
    let scoredChunks := chunks.map (fun c => (c, chunkScore idfMap vecs query c))
    let sorted := scoredChunks.mergeSort scoreLE
    ((sorted.filter (fun p => decide (p.2 > (1 : ℝ)/100))).take 3).map Prod.fst

/-- Number of chunks whose token multiset contains the term: the document
frequency of `calculateIdf`, characterized directly over the chunk list. -/
def dfCount (chunks : List Chunk) (t : Tok) : Nat :=
  chunks.countP (fun c => decide (t ∈ tokenize c.text))

/-- The knowledge-base part of the App state. -/
structure KBState where
  documents : List Document
  chunks : List Chunk
deriving DecidableEq, Repr

/-- `addDocumentToKnowledgeBase`: chunk the text, then append the document
record and the produced chunks. The source performs no validation and has
no failure path. -/
def addDocumentToKnowledgeBase (st : KBState) (fileName fileType : String)
    (fileSize : Nat) (textContent : List Char) : KBState :=
  { documents := st.documents ++ [⟨fileName, fileType, fileSize⟩],
    chunks := st.chunks ++ (intelligentChunking textContent fileName).1 }

/-! ### Helper lemmas about the association-list map -/

theorem getA_eq_none_iff {K V : Type} [DecidableEq K] (m : List (K × V)) (k : K) :
    getA m k = none ↔ k ∉ m.map Prod.fst := by
  induction m with
  | nil => simp [getA]
  | cons p ps ih =>
    by_cases h : p.1 = k
    · simp [getA, h]
    · simp [getA, h, ih, Ne.symm h]

theorem getA_isSome_iff {K V : Type} [DecidableEq K] (m : List (K × V)) (k : K) :
    (getA m k).isSome = true ↔ k ∈ m.map Prod.fst := by
  rw [← Decidable.not_iff_not, ← getA_eq_none_iff m k]
  simp [Option.isSome_iff_ne_none]

theorem getA_mem {K V : Type} [DecidableEq K] (m : List (K × V)) (k : K) (x : V)
    (h : getA m k = some x) : (k, x) ∈ m := by
  induction m with
  | nil => simp [getA] at h
  | cons p ps ih =>
    by_cases hp : p.1 = k
    · simp [getA, hp] at h
      have he : (k, x) = p := by rw [← hp, ← h]
      rw [he]
      exact List.mem_cons_self _ _
    · simp [getA, hp] at h
      exact List.mem_cons_of_mem _ (ih h)

theorem getA_of_nodup_mem {K V : Type} [DecidableEq K] {m : List (K × V)}
    (hm : (m.map Prod.fst).Nodup) {p : K × V} (hp : p ∈ m) : getA m p.1 = some p.2 := by
  induction m with
  | nil => simp at hp
  | cons q qs ih =>
    simp only [List.map_cons, List.nodup_cons] at hm
    rcases List.mem_cons.mp hp with h | h
    · simp [getA, h]
    · have hne : q.1 ≠ p.1 := by
        intro he
        exact hm.1 (he ▸ (List.mem_map_of_mem Prod.fst h))
      simp [getA, hne, ih hm.2 h]

/-! ### Helper lemmas about the tokenizer folds -/

/-- The first-occurrence set fold keeps exactly the members, without
duplicates. -/
theorem uniqueTerms_fold_spec (ts : List Tok) :
    ∀ acc : List Tok, acc.Nodup →
      (ts.foldl (fun acc t => if t ∈ acc then acc else acc ++ [t]) acc).Nodup ∧
      (∀ t, t ∈ ts.foldl (fun acc t => if t ∈ acc then acc else acc ++ [t]) acc ↔
        t ∈ acc ∨ t ∈ ts) := by
  induction ts with
  | nil => intro acc hacc; simpa using hacc
  | cons a ts ih =>
    intro acc hacc
    by_cases ha : a ∈ acc
    · have h := ih acc hacc
      simp only [List.foldl_cons, if_pos ha]
      refine ⟨h.1, fun t => ?_⟩
      rw [h.2 t]
      constructor
      · rintro (h' | h')
        · exact Or.inl h'
        · exact Or.inr (List.mem_cons_of_mem _ h')
      · rintro (h' | h')
        · exact Or.inl h'
        · rcases List.mem_cons.mp h' with rfl | h''
          · exact Or.inl ha
          · exact Or.inr h''
    · have hnd : (acc ++ [a]).Nodup := by
        simp [List.nodup_append, hacc, ha]
      have h := ih (acc ++ [a]) hnd
      simp only [List.foldl_cons, if_neg ha]
      refine ⟨h.1, fun t => ?_⟩
      rw [h.2 t]
      simp [List.mem_append, or_assoc, List.mem_cons]

theorem uniqueTerms_nodup (ts : List Tok) : (uniqueTerms ts).Nodup :=
  (uniqueTerms_fold_spec ts [] List.nodup_nil).1

theorem mem_uniqueTerms (ts : List Tok) (t : Tok) : t ∈ uniqueTerms ts ↔ t ∈ ts := by
  have h := (uniqueTerms_fold_spec ts [] List.nodup_nil).2 t
  simpa using h

/-- The counting fold shared by the term-frequency pass of
`vectorizeWithTfidf` and (with deduplicated tokens) the document-frequency
pass of `calculateIdf`. -/
theorem count_fold_spec (ts : List Tok) :
    ∀ (m : List (Tok × Nat)) (t : Tok),
      getA (ts.foldl (fun m t => setA m t ((getA m t).getD 0 + 1)) m) t =
        if t ∈ ts then some ((getA m t).getD 0 + ts.count t) else getA m t := by
  induction ts with
  | nil => intro m t; simp
  | cons a ts ih =>
    intro m t
    simp only [List.foldl_cons]
    rw [ih]
    by_cases hta : t = a
    · subst hta
      by_cases hts : t ∈ ts
      · simp [hts, getA_setA_self, List.count_cons_self]
        omega
      · simp [hts, getA_setA_self, List.count_eq_zero_of_not_mem hts]
    · rw [getA_setA_ne m _ (fun he => hta he.symm)]
      by_cases hts : t ∈ ts
      · simp [hts, List.mem_cons, List.count_cons_of_ne hta]
      · simp [hts, List.mem_cons, hta]

/-- Lookup commutes with a value-transforming map over an association list. -/
theorem getA_map_value {K V W : Type} [DecidableEq K] (m : List (K × V))
    (g : K → V → W) (k : K) :
    getA (m.map (fun p => (p.1, g p.1 p.2))) k = (getA m k).map (g k) := by
  induction m with
  | nil => simp [getA]
  | cons p ps ih =>
    by_cases hp : p.1 = k
    · simp [getA, hp]
    · simp [getA, hp, ih]

/-- Key-independent special case of `getA_map_value`. -/
theorem getA_map_val {K V W : Type} [DecidableEq K] (m : List (K × V))
    (g : V → W) (k : K) :
    getA (m.map (fun p => (p.1, g p.2))) k = (getA m k).map g := by
  induction m with
  | nil => simp [getA]
  | cons p ps ih =>
    by_cases hp : p.1 = k
    · simp [getA, hp]
    · simp [getA, hp, ih]

/-- On a duplicate-free list, the count of a member is 1 (stated over the
`BEq` instance used throughout this file). -/
theorem count_one_of_nodup_mem {ts : List Tok} {t : Tok} (hnd : ts.Nodup) (h : t ∈ ts) :
    ts.count t = 1 := by
  induction ts with
  | nil => simp at h
  | cons a ts ih =>
    rcases List.nodup_cons.mp hnd with ⟨hna, hnd'⟩
    rcases List.mem_cons.mp h with rfl | hmem
    · rw [List.count_cons_self, List.count_eq_zero_of_not_mem hna]
    · have hne : t ≠ a := fun he => hna (he ▸ hmem)
      rw [List.count_cons_of_ne hne, ih hnd' hmem]

/-- The document-frequency fold of `calculateIdf` computes `dfCount`. -/
theorem docFrequency_fold_spec (chunks : List Chunk) :
    ∀ (m : List (Tok × Nat)) (t : Tok),
      getA (chunks.foldl
          (fun m c => (uniqueTerms (tokenize c.text)).foldl
            (fun m t => setA m t ((getA m t).getD 0 + 1)) m) m) t =
        if (getA m t).isSome ∨ 0 < dfCount chunks t
        then some ((getA m t).getD 0 + dfCount chunks t) else none := by
  induction chunks with
  | nil =>
    intro m t
    rcases h : getA m t with _ | v <;> simp [dfCount, h]
  | cons c cs ih =>
    intro m t
    simp only [List.foldl_cons]
    rw [ih]
    have hstep := count_fold_spec (uniqueTerms (tokenize c.text)) m t
    have hdf : dfCount (c :: cs) t =
        (if t ∈ tokenize c.text then 1 else 0) + dfCount cs t := by
      simp only [dfCount, List.countP_cons]
      by_cases hc : t ∈ tokenize c.text <;> simp [hc] <;> omega
    by_cases hc : t ∈ tokenize c.text
    · have hcount : (uniqueTerms (tokenize c.text)).count t = 1 :=
        count_one_of_nodup_mem (uniqueTerms_nodup _) ((mem_uniqueTerms _ _).mpr hc)
      rw [hstep, if_pos ((mem_uniqueTerms _ _).mpr hc), hdf, if_pos hc]
      simp [hcount]
      omega
    · rw [hstep, if_neg (fun h => hc ((mem_uniqueTerms _ _).mp h)), hdf, if_neg hc]
      simp

theorem getA_docFrequency (chunks : List Chunk) (t : Tok) :
    getA (docFrequency chunks) t =
      if 0 < dfCount chunks t then some (dfCount chunks t) else none := by
  have h := docFrequency_fold_spec chunks [] t
  simpa [docFrequency, getA] using h

/-- Full characterization of `calculateIdf` lookups. -/
theorem getA_calculateIdf (chunks : List Chunk) (t : Tok) :
    getA (calculateIdf chunks) t =
      if 0 < dfCount chunks t
      then some (Real.log (((chunks.length : ℝ) + 1) / ((dfCount chunks t : ℝ) + 1)) + 1)
      else none := by
  unfold calculateIdf
  by_cases hlen : chunks.length = 0
  · have : chunks = [] := List.length_eq_zero.mp hlen
    subst this
    simp [getA, dfCount]
  · have h := getA_map_val (docFrequency chunks)
      (fun d => Real.log (((chunks.length : ℝ) + 1) / ((d : ℝ) + 1)) + 1) t
    simp only [] at h
    rw [if_neg hlen, h, getA_docFrequency]
    by_cases hdf : 0 < dfCount chunks t <;> simp [hdf]

/-- Full characterization of `vectorizeWithTfidf` lookups: every distinct
token of the text is a key, with value `(tf / tokenCount) * idf` where a
missing IDF entry contributes factor 0. -/
theorem getA_vectorizeWithTfidf (text : List Char) (idfMap : List (Tok × ℝ)) (t : Tok) :
    getA (vectorizeWithTfidf text idfMap) t =
      if t ∈ tokenize text
      then some ((((tokenize text).count t : ℝ) / ((tokenize text).length : ℝ)) *
        ((getA idfMap t).getD 0))
      else none := by
  unfold vectorizeWithTfidf
  by_cases hlen : (tokenize text).length = 0
  · have he : tokenize text = [] := List.length_eq_zero.mp hlen
    simp [hlen, he, getA]
  · have htf := count_fold_spec (tokenize text) [] t
    have hmap := getA_map_value
      ((tokenize text).foldl (fun m t => setA m t ((getA m t).getD 0 + 1)) [])
      (fun (k : Tok) (c : Nat) =>
        ((c : ℝ) / ((tokenize text).length : ℝ)) * ((getA idfMap k).getD 0)) t
    simp only [] at hmap
    rw [if_neg hlen]
    simp only []
    rw [hmap, htf]
    by_cases hmem : t ∈ tokenize text <;> simp [hmem, getA]

/-! ### Example corpus for the IDF claim -/

/-- First example chunk, text "cat dog". -/
def catDogChunk : Chunk := ⟨"d", 0, "cat dog".data, none⟩

/-- Second example chunk, text "dog bird". -/
def dogBirdChunk : Chunk := ⟨"d", 1, "dog bird".data, none⟩

/-- C2: For every sequence of chunks, `calculateIdf` maps exactly the terms
occurring in at least one chunk, assigning `idf(term) = ln((N+1)/(df+1)) + 1`
where `N` is the chunk count and `df` counts the chunks whose distinct-token
set contains the term; the empty corpus yields the empty table; and on the
two-chunk corpus "cat dog" / "dog bird": idf(dog) = 1 and
idf(cat) = idf(bird) = ln(3/2) + 1. -/
theorem calculateIdf_spec :
    (∀ (chunks : List Chunk) (t : Tok),
      getA (calculateIdf chunks) t =
        if 0 < dfCount chunks t
        then some (Real.log (((chunks.length : ℝ) + 1) / ((dfCount chunks t : ℝ) + 1)) + 1)
        else none) ∧
    (∀ (chunks : List Chunk) (t : Tok),
      (getA (calculateIdf chunks) t).isSome = true ↔
        ∃ c, c ∈ chunks ∧ t ∈ tokenize c.text) ∧
    calculateIdf [] = [] ∧
    getA (calculateIdf [catDogChunk, dogBirdChunk]) "dog".data = some 1 ∧
    getA (calculateIdf [catDogChunk, dogBirdChunk]) "cat".data = some (Real.log (3 / 2) + 1) ∧
    getA (calculateIdf [catDogChunk, dogBirdChunk]) "bird".data = some (Real.log (3 / 2) + 1) := by
  refine ⟨getA_calculateIdf, fun chunks t => ?_, by simp [calculateIdf], ?_, ?_, ?_⟩
  · rw [getA_calculateIdf]
    by_cases hdf : 0 < dfCount chunks t
    · simp only [if_pos hdf, Option.isSome_some, true_iff]
      rw [dfCount, List.countP_pos_iff] at hdf
      obtain ⟨c, hc, hct⟩ := hdf
      exact ⟨c, hc, of_decide_eq_true hct⟩
    · have hne : ¬∃ c, c ∈ chunks ∧ t ∈ tokenize c.text := by
        rintro ⟨c, hc, hct⟩
        exact hdf (List.countP_pos_iff.mpr ⟨c, hc, decide_eq_true hct⟩)
      simp [if_neg hdf, hne]
  · have h1 : dfCount [catDogChunk, dogBirdChunk] "dog".data = 2 := by decide
    rw [getA_calculateIdf, h1]
    norm_num [Real.log_one]
  · have h1 : dfCount [catDogChunk, dogBirdChunk] "cat".data = 1 := by decide
    rw [getA_calculateIdf, h1]
    norm_num
  · have h1 : dfCount [catDogChunk, dogBirdChunk] "bird".data = 1 := by decide
    rw [getA_calculateIdf, h1]
    norm_num

/-- C6 counterexample: vectorizing the text "zzz" against an empty IDF table
produces a vector that does contain the key "zzz", with weight 0 — the
claim says keys are present only for non-zero weights and that terms absent
from the IDF table get no key. -/
theorem vectorize_zero_weight_counterexample :
    vectorizeWithTfidf "zzz".data [] = [("zzz".data, 0)] := by
  have htok : tokenize "zzz".data = ["zzz".data] := by decide
  unfold vectorizeWithTfidf
  rw [htok]
  norm_num [setA, getA]

/-- C6 amended: the vector produced by `vectorizeWithTfidf` has a key for
exactly every distinct token of the input text; a term absent from the IDF
table receives weight 0 but its key remains present (it is excluded only in
effect, contributing nothing to any similarity score). -/
theorem vectorizeWithTfidf_keys_spec (text : List Char) (idfMap : List (Tok × ℝ))
    (t : Tok) (hmem : t ∈ tokenize text) (hidf : getA idfMap t = none) :
    getA (vectorizeWithTfidf text idfMap) t = some 0 ∧
    (∀ s : Tok, (getA (vectorizeWithTfidf text idfMap) s).isSome = true ↔
      s ∈ tokenize text) := by
  constructor
  · rw [getA_vectorizeWithTfidf, if_pos hmem, hidf]
    simp
  · intro s
    rw [getA_vectorizeWithTfidf]
    by_cases hs : s ∈ tokenize text <;> simp [hs]

/-- Witness for C6's amended theorem at text "zzz" and the empty IDF table. -/
theorem vectorizeWithTfidf_keys_spec_witness :
    "zzz".data ∈ tokenize "zzz".data ∧
    getA ([] : List (Tok × ℝ)) "zzz".data = none ∧
    getA (vectorizeWithTfidf "zzz".data []) "zzz".data = some 0 :=
  ⟨by decide, rfl,
    (vectorizeWithTfidf_keys_spec "zzz".data [] "zzz".data (by decide) rfl).1⟩

/-- C5 counterexample: ingesting empty text (empty after trimming) into the
empty knowledge base appends a document record and reports no failure, and
ingesting the same document name twice appends it twice — the claim says
both must fail with an `IngestionError` and leave the state unchanged. -/
theorem ingest_no_failure_counterexample :
    (addDocumentToKnowledgeBase ⟨[], []⟩ "a.txt" "text/plain" 0 []).documents =
      [⟨"a.txt", "text/plain", 0⟩] ∧
    (addDocumentToKnowledgeBase
        (addDocumentToKnowledgeBase ⟨[], []⟩ "a.txt" "text/plain" 0 "hi".data)
        "a.txt" "text/plain" 0 "hi".data).documents =
      [⟨"a.txt", "text/plain", 0⟩, ⟨"a.txt", "text/plain", 0⟩] :=
  ⟨rfl, rfl⟩

/-- C5 amended: `addDocumentToKnowledgeBase` never fails and performs no
validation: it unconditionally appends the document record and the chunks
produced by the chunker; empty text contributes zero chunks (but still a
document record), and a duplicate name is simply ingested again. -/
theorem ingest_always_appends (st : KBState) (fileName fileType : String)
    (fileSize : Nat) (textContent : List Char) :
    (addDocumentToKnowledgeBase st fileName fileType fileSize textContent).documents =
      st.documents ++ [⟨fileName, fileType, fileSize⟩] ∧
    (addDocumentToKnowledgeBase st fileName fileType fileSize textContent).chunks =
      st.chunks ++ (intelligentChunking textContent fileName).1 ∧
    (addDocumentToKnowledgeBase st fileName fileType fileSize []).chunks = st.chunks ∧
    (addDocumentToKnowledgeBase
        (addDocumentToKnowledgeBase st fileName fileType fileSize textContent)
        fileName fileType fileSize textContent).documents.count
        ⟨fileName, fileType, fileSize⟩ =
      st.documents.count ⟨fileName, fileType, fileSize⟩ + 2 := by
  refine ⟨rfl, rfl, ?_, ?_⟩
  · show st.chunks ++ (intelligentChunking [] fileName).1 = st.chunks
    have hloop : ∀ ct cfg1 cfg2, chunkLoop [] fileName ct cfg1 cfg2 0 0 = [] := by
      intro ct cfg1 cfg2
      rw [chunkLoop]
      simp
    simp [intelligentChunking, hloop]
  · simp [addDocumentToKnowledgeBase, List.count_append]

/-- C9: the content classifier returns `atomic` exactly when the newline
count divided by the character count exceeds the 0.03 threshold, and
`narrative` otherwise — including for zero-length text, where the guarded
early return agrees with the convention 0/0 = 0. (Determinism is inherent:
the classifier is embedded as a pure function.) -/
theorem analyzeContentType_spec (text : List Char) :
    (analyzeContentType text = .atomic ↔
      ((text.count '\n' : ℚ) / (text.length : ℚ) > NEWLINE_DENSITY_THRESHOLD)) ∧
    (analyzeContentType text = .narrative ↔
      ¬((text.count '\n' : ℚ) / (text.length : ℚ) > NEWLINE_DENSITY_THRESHOLD)) := by
  unfold analyzeContentType
  by_cases h0 : text.length = 0
  · have he : text = [] := List.length_eq_zero.mp h0
    subst he
    simp [NEWLINE_DENSITY_THRESHOLD]
    norm_num
  · rw [if_neg h0]
    by_cases hd : ((text.count '\n' : ℚ) / (text.length : ℚ) > NEWLINE_DENSITY_THRESHOLD) <;>
      simp [hd]

/-! ### Closed form of the sliding-window chunker -/

/-- The chunk the loop pushes at a given offset: it spans
`[offset, min (offset+size) length)`. -/
def chunkSpan (text : List Char) (src : String) (ct : ContentType)
    (size offset ci : Nat) : Chunk :=
  ⟨src, ci, (text.drop offset).take (min (offset + size) text.length - offset), some ct⟩

/-- Number of iterations of the progressing loop started at offset `j`:
the count of offsets `j, j+step, j+2*step, …` that are below `len`. -/
def numChunksFrom (len step j : Nat) : Nat := (len - j + step - 1) / step

theorem numChunksFrom_zero {len step j : Nat} (hstep : 0 < step) (hj : len ≤ j) :
    numChunksFrom len step j = 0 := by
  unfold numChunksFrom
  apply Nat.div_eq_of_lt
  omega

theorem numChunksFrom_step {len step j : Nat} (hstep : 0 < step) (hj : j < len) :
    numChunksFrom len step j = numChunksFrom len step (j + step) + 1 := by
  unfold numChunksFrom
  rcases le_or_lt (len - j) step with hle | hlt
  · have h1 : len - j + step - 1 = (len - j - 1) + step := by omega
    rw [h1, Nat.add_div_right _ hstep]
    have h2 : (len - j - 1) / step = 0 := Nat.div_eq_of_lt (by omega)
    have h3 : len - (j + step) = 0 := by omega
    have h4 : (0 + step - 1) / step = 0 := Nat.div_eq_of_lt (by omega)
    rw [h2, h3, h4]
  · have h1 : len - j + step - 1 = ((len - (j + step)) + step - 1) + step := by omega
    rw [h1, Nat.add_div_right _ hstep]

/-- Closed form of the loop when the window makes progress
(`overlap < size`). -/
theorem chunkLoop_progress_eq (text : List Char) (src : String) (ct : ContentType)
    (size overlap : Nat) (hso : overlap < size) (j ci : Nat) :
    chunkLoop text src ct size overlap j ci =
      (List.range (numChunksFrom text.length (size - overlap) j)).map
        (fun i => chunkSpan text src ct size (j + i * (size - overlap)) (ci + i)) := by
  rw [chunkLoop]
  by_cases h : j < text.length
  · have hnn : ¬(j + size - overlap ≤ j) := by omega
    simp only [dif_pos h, dif_neg hnn]
    rw [chunkLoop_progress_eq text src ct size overlap hso (j + size - overlap) (ci + 1)]
    have hjs : j + size - overlap = j + (size - overlap) := by omega
    have hm : numChunksFrom text.length (size - overlap) j =
        numChunksFrom text.length (size - overlap) (j + (size - overlap)) + 1 :=
      numChunksFrom_step (by omega) h
    rw [hjs, hm, List.range_succ_eq_map, List.map_cons, List.map_map]
    have hfun : ((fun i => chunkSpan text src ct size (j + i * (size - overlap)) (ci + i)) ∘
        Nat.succ) = fun i =>
          chunkSpan text src ct size
            ((j + (size - overlap)) + i * (size - overlap)) ((ci + 1) + i) := by
      funext i
      have e1 : j + Nat.succ i * (size - overlap) =
          (j + (size - overlap)) + i * (size - overlap) := by
        simp [Nat.succ_mul]
        omega
      have e2 : ci + Nat.succ i = (ci + 1) + i := by omega
      simp only [Function.comp_apply, e1, e2]
    rw [hfun]
    simp [chunkSpan]
  · simp only [dif_neg h]
    rw [numChunksFrom_zero (by omega) (by omega)]
    simp
termination_by text.length - j
decreasing_by omega

/-- When the configuration stalls (`size ≤ overlap`) and the text is
non-empty at the current offset, the loop pushes one chunk and breaks. -/
theorem chunkLoop_stall_eq (text : List Char) (src : String) (ct : ContentType)
    (size overlap : Nat) (hso : size ≤ overlap) (j ci : Nat) (hj : j < text.length) :
    chunkLoop text src ct size overlap j ci =
      [⟨src, ci, (text.drop j).take (min (j + size) text.length - j), some ct⟩] := by
  rw [chunkLoop]
  have hnn : j + size - overlap ≤ j := by omega
  simp only [dif_pos hj, dif_pos hnn]

/-- Dropping inside a take swaps to taking inside the drop. -/
theorem drop_of_take_eq {α : Type} (l : List α) (n m : Nat) :
    (l.take n).drop m = (l.drop m).take (n - m) := by
  rcases le_or_lt m n with h | h
  · have he : n = m + (n - m) := by omega
    rw [he, ← List.take_drop]
    simp
  · have h1 : (l.take n).drop m = [] :=
      List.drop_eq_nil_of_le (by simp; omega)
    have h2 : n - m = 0 := by omega
    rw [h1, h2]
    simp

/-- The concatenation of the overlap-stripped chunk texts of the loop
started at offset `j` is exactly the text from position `j + overlap` on. -/
theorem chunkLoop_drop_concat (text : List Char) (src : String) (ct : ContentType)
    (size overlap : Nat) (hso : overlap < size) (j ci : Nat) :
    ((chunkLoop text src ct size overlap j ci).map (fun d => d.text.drop overlap)).flatten =
      text.drop (j + overlap) := by
  rw [chunkLoop]
  by_cases h : j < text.length
  · have hnn : ¬(j + size - overlap ≤ j) := by omega
    simp only [dif_pos h, dif_neg hnn, List.map_cons, List.flatten_cons]
    rw [chunkLoop_drop_concat text src ct size overlap hso (j + size - overlap) (ci + 1)]
    have e1 : j + size - overlap + overlap = j + size := by omega
    rw [e1, drop_of_take_eq, List.drop_drop]
    have e2 : min (j + size) text.length - j - overlap =
        min (j + size) text.length - (j + overlap) := by omega
    rw [e2]
    have hdd : text.drop (j + size) =
        text.drop ((j + overlap) + (min (j + size) text.length - (j + overlap))) := by
      rcases le_or_lt (j + size) text.length with hle | hlt
      · congr 1
        omega
      · rw [List.drop_eq_nil_of_le (by omega), List.drop_eq_nil_of_le (by omega)]
    rw [hdd, List.drop_take_append_drop]
  · simp only [dif_neg h, List.map_nil, List.flatten_nil]
    rw [eq_comm]
    exact List.drop_eq_nil_of_le (by omega)
termination_by text.length - j
decreasing_by omega

/-- C4: with `overlap < size` the chunker emits exactly the chunks spanning
`[offset, min (offset+size) length)` for offsets `0, step, 2*step, …` below
the length (`step = size - overlap`), with sequential indices from 0; empty
text gives no chunks; and chunking "AAAA" with size 3, overlap 1 gives
exactly "AAA" (index 0) and "AA" (index 1). -/
theorem chunker_sliding_window_spec (text : List Char) (src : String) (ct : ContentType)
    (size overlap : Nat) (h : overlap < size) :
    chunkLoop text src ct size overlap 0 0 =
      (List.range (numChunksFrom text.length (size - overlap) 0)).map
        (fun i => chunkSpan text src ct size (i * (size - overlap)) i) ∧
    chunkLoop [] src ct size overlap 0 0 = [] ∧
    chunkLoop "AAAA".data src ct 3 1 0 0 =
      [⟨src, 0, "AAA".data, some ct⟩, ⟨src, 1, "AA".data, some ct⟩] := by
  refine ⟨?_, ?_, ?_⟩
  · rw [chunkLoop_progress_eq text src ct size overlap h 0 0]
    have hfun : (fun i => chunkSpan text src ct size (0 + i * (size - overlap)) (0 + i)) =
        fun i => chunkSpan text src ct size (i * (size - overlap)) i := by
      funext i
      simp
    rw [hfun]
  · rw [chunkLoop]
    simp
  · rw [chunkLoop_progress_eq "AAAA".data src ct 3 1 (by norm_num) 0 0]
    have hn : numChunksFrom ("AAAA".data).length 2 0 = 2 := by decide
    rw [hn]
    simp [List.range_succ, chunkSpan]

/-- Witness for C4 at text "AAAA", source "doc", size 3, overlap 1. -/
theorem chunker_sliding_window_spec_witness :
    (1 < 3) ∧
    chunkLoop "AAAA".data "doc" ContentType.narrative 3 1 0 0 =
      [⟨"doc", 0, "AAA".data, some .narrative⟩, ⟨"doc", 1, "AA".data, some .narrative⟩] :=
  ⟨by norm_num,
    (chunker_sliding_window_spec "AAAA".data "doc" .narrative 3 1 (by norm_num)).2.2⟩

/-- C7 counterexample: with size 1 and overlap 2 on the text "AB" the
chunker neither raises a configuration error nor loops forever: it silently
returns the truncated single-chunk sequence ["A"], which does not cover the
input — precisely the behaviour the claim says must not happen. -/
theorem chunker_stall_counterexample :
    chunkLoop "AB".data "doc" ContentType.narrative 1 2 0 0 =
      [⟨"doc", 0, "A".data, some .narrative⟩] ∧
    ((chunkLoop "AB".data "doc" ContentType.narrative 1 2 0 0).map Chunk.text).flatten ≠
      "AB".data := by
  have h : chunkLoop "AB".data "doc" ContentType.narrative 1 2 0 0 =
      [⟨"doc", 0, "A".data, some .narrative⟩] := by
    rw [chunkLoop_stall_eq "AB".data "doc" .narrative 1 2 (by norm_num) 0 0 (by decide)]
    decide
  refine ⟨h, ?_⟩
  rw [h]
  decide

/-- C7 corrected: for every configuration with `size - overlap ≤ 0` and
non-empty text, the chunker terminates after emitting exactly one chunk
spanning `[0, min size length)`; it raises no error and does not loop
forever (the loop breaks silently after the first push, returning a
truncated sequence). -/
theorem chunker_stall_spec (text : List Char) (src : String) (ct : ContentType)
    (size overlap : Nat) (h : size ≤ overlap) (hne : text ≠ []) :
    chunkLoop text src ct size overlap 0 0 =
      [⟨src, 0, text.take (min size text.length), some ct⟩] := by
  have hj : 0 < text.length := List.length_pos.mpr hne
  rw [chunkLoop_stall_eq text src ct size overlap h 0 0 hj]
  simp

/-- Witness for C7's corrected theorem at text "AB", size 1, overlap 2. -/
theorem chunker_stall_spec_witness :
    (1 ≤ 2) ∧ ("AB".data ≠ ([] : List Char)) ∧
    chunkLoop "AB".data "doc" ContentType.narrative 1 2 0 0 =
      [⟨"doc", 0, "AB".data.take (min 1 ("AB".data).length), some .narrative⟩] :=
  ⟨by norm_num, by decide,
    chunker_stall_spec "AB".data "doc" .narrative 1 2 (by norm_num) (by decide)⟩

/-- Concatenate chunk texts with the configured overlap removed: the first
chunk is kept whole, every later chunk loses its first `overlap`
characters. -/
def reconstruct (overlap : Nat) : List Chunk → List Char
  | [] => []
  | c :: cs => c.text ++ (cs.map (fun d => d.text.drop overlap)).flatten

/-- C8: for every text and configuration with `size > overlap > 0`,
concatenating the chunk texts with the overlap stripped from every chunk
after the first reconstructs the input exactly. -/
theorem chunking_roundtrip (text : List Char) (src : String) (ct : ContentType)
    (size overlap : Nat) (h1 : overlap < size) (h2 : 0 < overlap) :
    reconstruct overlap (chunkLoop text src ct size overlap 0 0) = text := by
  by_cases hne : text = []
  · subst hne
    rw [chunkLoop]
    simp [reconstruct]
  · have hj : 0 < text.length := List.length_pos.mpr hne
    rw [chunkLoop]
    have hnn : ¬(0 + size - overlap ≤ 0) := by omega
    simp only [dif_pos hj, dif_neg hnn, reconstruct]
    rw [chunkLoop_drop_concat text src ct size overlap h1 (0 + size - overlap) 1]
    have e1 : 0 + size - overlap + overlap = size := by omega
    rw [e1]
    simp only [List.drop_zero, Nat.zero_add, Nat.sub_zero]
    rcases le_or_lt size text.length with hle | hlt
    · rw [Nat.min_eq_left hle]
      exact List.take_append_drop size text
    · rw [Nat.min_eq_right (le_of_lt hlt), List.take_length,
        List.drop_eq_nil_of_le (le_of_lt hlt)]
      simp

/-- Witness for C8 at text "AAAA", size 3, overlap 1. -/
theorem chunking_roundtrip_witness :
    (1 < 3) ∧ (0 < 1) ∧
    reconstruct 1 (chunkLoop "AAAA".data "doc" ContentType.narrative 3 1 0 0) =
      "AAAA".data :=
  ⟨by norm_num, by norm_num,
    chunking_roundtrip "AAAA".data "doc" .narrative 3 1 (by norm_num) (by norm_num)⟩

/-! ### Properties of the cosine similarity -/

/-- All weights of the vector are non-negative. -/
def vecNonneg (v : Vec) : Prop := ∀ p ∈ v, 0 ≤ p.2

/-- The vector has duplicate-free keys (always true of a JS `Map`). -/
def keysNodup (v : Vec) : Prop := (v.map Prod.fst).Nodup

theorem getVal_nonneg {v : Vec} (hv : vecNonneg v) (k : Tok) : 0 ≤ getVal v k := by
  unfold getVal
  rcases hA : getA v k with _ | x
  · simp
  · simpa using hv _ (getA_mem v k x hA)

theorem sumSq_nonneg (v : Vec) : 0 ≤ sumSq v := by
  apply List.sum_nonneg
  intro x hx
  obtain ⟨p, _, rfl⟩ := List.mem_map.mp hx
  exact mul_self_nonneg _

theorem magnitude_nonneg (v : Vec) : 0 ≤ magnitude v := Real.sqrt_nonneg _

theorem magnitude_eq_zero_iff (v : Vec) : magnitude v = 0 ↔ sumSq v = 0 := by
  unfold magnitude
  rw [Real.sqrt_eq_zero (sumSq_nonneg v)]

/-- Over any key set containing all of the vector's keys, the sum of squared
looked-up values equals the accumulated sum of squared entries. -/
theorem sq_sum_eq_sumSq (v : Vec) (s : Finset Tok) (hs : keysOf v ⊆ s)
    (hnd : keysNodup v) : ∑ k ∈ s, getVal v k ^ 2 = sumSq v := by
  rw [← Finset.sum_subset hs ?hzero]
  case hzero =>
    intro k _ hnk
    have hnone : getA v k = none :=
      (getA_eq_none_iff v k).mpr (by simpa [keysOf] using hnk)
    simp [getVal, hnone]
  unfold keysOf
  rw [List.sum_toFinset _ hnd, List.map_map]
  unfold sumSq
  apply congrArg
  apply List.map_congr_left
  intro p hp
  have hval : getA v p.1 = some p.2 := getA_of_nodup_mem hnd hp
  simp [Function.comp, getVal, hval, pow_two]

theorem dotProduct_nonneg {a b : Vec} (ha : vecNonneg a) (hb : vecNonneg b) :
    0 ≤ dotProduct a b :=
  Finset.sum_nonneg fun k _ => mul_nonneg (getVal_nonneg ha k) (getVal_nonneg hb k)

theorem dotProduct_self {v : Vec} (hnd : keysNodup v) : dotProduct v v = sumSq v := by
  unfold dotProduct
  rw [Finset.union_self]
  rw [← sq_sum_eq_sumSq v (keysOf v) (Finset.Subset.refl _) hnd]
  exact Finset.sum_congr rfl fun k _ => (pow_two _).symm

/-- Cauchy–Schwarz for the embedded dot product. -/
theorem dotProduct_le_mag {a b : Vec} (hka : keysNodup a) (hkb : keysNodup b) :
    dotProduct a b ≤ magnitude a * magnitude b := by
  unfold dotProduct magnitude
  calc ∑ k ∈ keysOf a ∪ keysOf b, getVal a k * getVal b k
      ≤ Real.sqrt (∑ k ∈ keysOf a ∪ keysOf b, getVal a k ^ 2) *
        Real.sqrt (∑ k ∈ keysOf a ∪ keysOf b, getVal b k ^ 2) :=
        Real.sum_mul_le_sqrt_mul_sqrt _ _ _
    _ = Real.sqrt (sumSq a) * Real.sqrt (sumSq b) := by
        rw [sq_sum_eq_sumSq a _ Finset.subset_union_left hka,
          sq_sum_eq_sumSq b _ Finset.subset_union_right hkb]

/-- C3: on non-negative, duplicate-free-key vectors the cosine similarity
lies in [0, 1]; a zero-magnitude argument forces result exactly 0 (no
error, no NaN — the guard returns before dividing); and the
self-similarity of any vector of non-zero magnitude is exactly 1. -/
theorem cosineSimilarity_contract (a b v w : Vec)
    (ha : vecNonneg a) (hb : vecNonneg b) (hka : keysNodup a) (hkb : keysNodup b)
    (hw : magnitude w = 0) (hkv : keysNodup v) (hv : magnitude v ≠ 0) :
    (0 ≤ cosineSimilarity a b ∧ cosineSimilarity a b ≤ 1) ∧
    cosineSimilarity a w = 0 ∧ cosineSimilarity w b = 0 ∧
    cosineSimilarity v v = 1 := by
  refine ⟨⟨?_, ?_⟩, ?_, ?_, ?_⟩
  · unfold cosineSimilarity
    split
    · exact le_refl 0
    · exact div_nonneg (dotProduct_nonneg ha hb)
        (mul_nonneg (magnitude_nonneg a) (magnitude_nonneg b))
  · unfold cosineSimilarity
    split
    · norm_num
    · next hcond =>
      push_neg at hcond
      obtain ⟨hma, hmb⟩ := hcond
      have hpos : 0 < magnitude a * magnitude b :=
        mul_pos (lt_of_le_of_ne (magnitude_nonneg a) (Ne.symm hma))
          (lt_of_le_of_ne (magnitude_nonneg b) (Ne.symm hmb))
      rw [div_le_one hpos]
      exact dotProduct_le_mag hka hkb
  · unfold cosineSimilarity
    rw [if_pos (Or.inr hw)]
  · unfold cosineSimilarity
    rw [if_pos (Or.inl hw)]
  · unfold cosineSimilarity
    rw [if_neg (by simp [hv])]
    rw [dotProduct_self hkv]
    unfold magnitude
    rw [Real.mul_self_sqrt (sumSq_nonneg v)]
    have hne : sumSq v ≠ 0 := fun h0 => hv ((magnitude_eq_zero_iff v).mpr h0)
    exact div_self hne

/-- Witness for C3 at the one-entry vector ⟨"a" ↦ 1⟩ and the empty vector. -/
theorem cosineSimilarity_contract_witness :
    magnitude ([] : Vec) = 0 ∧ magnitude [("a".data, (1 : ℝ))] ≠ 0 ∧
    ((0 ≤ cosineSimilarity [("a".data, (1 : ℝ))] [("a".data, (1 : ℝ))] ∧
      cosineSimilarity [("a".data, (1 : ℝ))] [("a".data, (1 : ℝ))] ≤ 1) ∧
     cosineSimilarity [("a".data, (1 : ℝ))] ([] : Vec) = 0 ∧
     cosineSimilarity ([] : Vec) [("a".data, (1 : ℝ))] = 0 ∧
     cosineSimilarity [("a".data, (1 : ℝ))] [("a".data, (1 : ℝ))] = 1) := by
  have hnn : vecNonneg [("a".data, (1 : ℝ))] := by
    intro p hp
    simp at hp
    rw [hp]
    norm_num
  have hnd : keysNodup [("a".data, (1 : ℝ))] := by simp [keysNodup]
  have hw : magnitude ([] : Vec) = 0 := by
    simp [magnitude, sumSq]
  have hv : magnitude [("a".data, (1 : ℝ))] ≠ 0 := by
    have hs : sumSq [("a".data, (1 : ℝ))] = 1 := by simp [sumSq]
    simp [magnitude, hs]
  exact ⟨hw, hv, cosineSimilarity_contract _ _ _ _ hnn hnn hnd hnd hw hnd hv⟩

/-- C10 (implicit): `cosineSimilarity` is symmetric in its two arguments. -/
theorem cosineSimilarity_symm (a b : Vec) :
    cosineSimilarity a b = cosineSimilarity b a := by
  have hd : dotProduct a b = dotProduct b a := by
    unfold dotProduct
    rw [Finset.union_comm]
    exact Finset.sum_congr rfl (fun k _ => mul_comm _ _)
  unfold cosineSimilarity
  by_cases ha : magnitude a = 0 <;> by_cases hb : magnitude b = 0 <;>
    simp [ha, hb, hd, mul_comm]

/-! ### The retrieval ranking (C1) -/

theorem scoreLE_trans (a b c : Chunk × ℝ) (h1 : scoreLE a b) (h2 : scoreLE b c) :
    scoreLE a c := by
  unfold scoreLE at *
  exact decide_eq_true (le_trans (of_decide_eq_true h2) (of_decide_eq_true h1))

theorem scoreLE_total (a b : Chunk × ℝ) : scoreLE a b || scoreLE b a := by
  unfold scoreLE
  rcases le_total a.2 b.2 with h | h <;> simp [h]

/-- Unfolding of the lexicographic comparator the stability statement of
`mergeSort` uses: sort by descending score, break ties by position. -/
theorem enumLE_scoreLE_iff (x y : Nat × (Chunk × ℝ)) :
    List.enumLE scoreLE x y = true ↔
      (y.2.2 < x.2.2 ∨ (y.2.2 = x.2.2 ∧ x.1 ≤ y.1)) := by
  unfold List.enumLE scoreLE
  by_cases h1 : y.2.2 ≤ x.2.2 <;> by_cases h2 : x.2.2 ≤ y.2.2
  · have heq : y.2.2 = x.2.2 := le_antisymm h1 h2
    simp [h1, h2, heq]
  · have hlt : y.2.2 < x.2.2 := lt_of_le_not_le h1 h2
    simp [h1, h2, hlt]
  · have hnlt : ¬ y.2.2 < x.2.2 := fun hl => h1 hl.le
    have hne : y.2.2 ≠ x.2.2 := fun he => h1 he.le
    simp [h1, h2, hnlt, hne]
  · rcases le_total x.2.2 y.2.2 with h | h
    · exact absurd h h2
    · exact absurd h h1

theorem enumLE_scoreLE_trans (a b c : Nat × (Chunk × ℝ))
    (h1 : List.enumLE scoreLE a b) (h2 : List.enumLE scoreLE b c) :
    List.enumLE scoreLE a c := by
  rw [enumLE_scoreLE_iff] at h1 h2 ⊢
  rcases h1 with h1 | ⟨h1e, h1i⟩ <;> rcases h2 with h2 | ⟨h2e, h2i⟩
  · exact Or.inl (lt_trans h2 h1)
  · exact Or.inl (by rw [h2e]; exact h1)
  · exact Or.inl (by rw [← h1e]; exact h2)
  · exact Or.inr ⟨by rw [h2e, h1e], le_trans h1i h2i⟩

theorem enumLE_scoreLE_total (a b : Nat × (Chunk × ℝ)) :
    List.enumLE scoreLE a b || List.enumLE scoreLE b a := by
  rcases lt_trichotomy a.2.2 b.2.2 with h | h | h
  · have hb : List.enumLE scoreLE b a = true := (enumLE_scoreLE_iff b a).mpr (Or.inl h)
    simp [hb]
  · rcases Nat.le_total a.1 b.1 with hi | hi
    · have ha : List.enumLE scoreLE a b = true :=
        (enumLE_scoreLE_iff a b).mpr (Or.inr ⟨h.symm, hi⟩)
      simp [ha]
    · have hb : List.enumLE scoreLE b a = true :=
        (enumLE_scoreLE_iff b a).mpr (Or.inr ⟨h, hi⟩)
      simp [hb]
  · have ha : List.enumLE scoreLE a b = true := (enumLE_scoreLE_iff a b).mpr (Or.inl h)
    simp [ha]

/-- C1: `findRelevantChunks` returns at most 3 chunks; every returned
chunk's score (the cosine similarity of the query vector against the
chunk's stored vector) strictly exceeds the relevance floor 0.01; and the
returned chunks are ordered by strictly descending score with ties broken
by the chunks' original corpus position (stability of the sort). -/
theorem findRelevantChunks_rank_spec (chunks : List Chunk) (idfMap : List (Tok × ℝ))
    (vecs : List (String × Vec)) (query : List Char) :
    (findRelevantChunks chunks idfMap vecs query).length ≤ 3 ∧
    (∀ c ∈ findRelevantChunks chunks idfMap vecs query,
      chunkScore idfMap vecs query c > 1 / 100) ∧
    ∃ ps : List (Nat × Chunk),
      ps.map Prod.snd = findRelevantChunks chunks idfMap vecs query ∧
      (∀ q ∈ ps, chunks[q.1]? = some q.2) ∧
      ps.Pairwise (fun q r =>
        chunkScore idfMap vecs query q.2 > chunkScore idfMap vecs query r.2 ∨
        (chunkScore idfMap vecs query q.2 = chunkScore idfMap vecs query r.2 ∧
          q.1 < r.1)) := by
  by_cases hguard : chunks.length = 0 ∨ vecs.length = 0 ∨ idfMap.length = 0
  · have hout : findRelevantChunks chunks idfMap vecs query = [] := by
      unfold findRelevantChunks
      rw [if_pos hguard]
    rw [hout]
    exact ⟨by simp, by simp, [], by simp, by simp, List.Pairwise.nil⟩
  · have hout : findRelevantChunks chunks idfMap vecs query =
        ((((chunks.map (fun c => (c, chunkScore idfMap vecs query c))).mergeSort
            scoreLE).filter
          (fun p => decide (p.2 > (1 : ℝ)/100))).take 3).map Prod.fst := by
      unfold findRelevantChunks
      rw [if_neg hguard]
    set qs := chunkScore idfMap vecs query with hqs
    set scored := chunks.map (fun c => (c, qs c)) with hscored
    set E := (scored.enum).mergeSort (List.enumLE scoreLE) with hEdef
    have hsorted : scored.mergeSort scoreLE = E.map (fun x => x.2) :=
      (List.mergeSort_enum (l := scored)).symm
    set P : Nat × (Chunk × ℝ) → Bool :=
      (fun p : Chunk × ℝ => decide (p.2 > (1 : ℝ)/100)) ∘ (fun x => x.2) with hP
    set G := (E.filter P).take 3 with hGdef
    have hout2 : findRelevantChunks chunks idfMap vecs query =
        G.map (fun e => e.2.1) := by
      rw [hout, hsorted, List.filter_map, ← List.map_take, List.map_map]
      rfl
    have hmemE : ∀ e ∈ E, chunks[e.1]? = some e.2.1 ∧ e.2.2 = qs e.2.1 := by
      intro e he
      have h1 : e ∈ scored.enum := (List.mergeSort_perm (scored.enum) _).subset he
      have h2 : scored[e.1]? = some e.2 := List.mem_enum_iff_getElem?.mp h1
      rw [hscored, List.getElem?_map] at h2
      rcases hc : chunks[e.1]? with _ | c
      · rw [hc] at h2
        simp at h2
      · rw [hc] at h2
        simp only [Option.map_some'] at h2
        have h3 : e.2 = (c, qs c) := by
          injection h2 with h2'
          exact h2'.symm
        constructor
        · rw [h3]
        · rw [h3]
    have hpairE : E.Pairwise (fun x y => List.enumLE scoreLE x y = true) :=
      List.sorted_mergeSort enumLE_scoreLE_trans enumLE_scoreLE_total (scored.enum)
    have hndE : E.Pairwise (fun x y => x.1 ≠ y.1) := by
      have hperm : E.Perm (scored.enum) := List.mergeSort_perm _ _
      have hnd : (E.map Prod.fst).Nodup :=
        ((hperm.map Prod.fst).nodup_iff).mpr (List.nodup_enum_map_fst _)
      exact List.pairwise_map.mp hnd
    have hpairS : E.Pairwise (fun x y =>
        qs y.2.1 < qs x.2.1 ∨ (qs x.2.1 = qs y.2.1 ∧ x.1 < y.1)) := by
      refine List.Pairwise.imp_of_mem ?_ (hpairE.and hndE)
      intro x y hx hy hxy
      obtain ⟨hle, hne⟩ := hxy
      obtain ⟨hx1, hx2⟩ := hmemE x hx
      obtain ⟨hy1, hy2⟩ := hmemE y hy
      rcases (enumLE_scoreLE_iff x y).mp hle with hlt | ⟨heq, hidx⟩
      · left
        rw [← hx2, ← hy2]
        exact hlt
      · right
        exact ⟨by rw [← hx2, ← hy2, heq], lt_of_le_of_ne hidx hne⟩
    have hpairG : G.Pairwise (fun x y =>
        qs y.2.1 < qs x.2.1 ∨ (qs x.2.1 = qs y.2.1 ∧ x.1 < y.1)) :=
      (hpairS.filter P).sublist (List.take_sublist _ _)
    have hGsubE : ∀ e ∈ G, e ∈ E := by
      intro e he
      exact (List.filter_sublist _).subset ((List.take_sublist _ _).subset he)
    rw [hout2]
    refine ⟨?_, ?_, ?_⟩
    · rw [List.length_map, hGdef, List.length_take]
      exact min_le_left _ _
    · intro c hc
      obtain ⟨e, heG, rfl⟩ := List.mem_map.mp hc
      have heF : e ∈ E.filter P := (List.take_sublist _ _).subset heG
      have hPe : P e = true := (List.mem_filter.mp heF).2
      have heE : e ∈ E := (List.mem_filter.mp heF).1
      obtain ⟨-, hsc⟩ := hmemE e heE
      have hgt : e.2.2 > (1 : ℝ)/100 := of_decide_eq_true hPe
      rw [← hsc]
      exact hgt
    · refine ⟨G.map (fun e => (e.1, e.2.1)), ?_, ?_, ?_⟩
      · rw [List.map_map]
        rfl
      · intro q hq
        obtain ⟨e, heG, rfl⟩ := List.mem_map.mp hq
        exact (hmemE e (hGsubE e heG)).1
      · rw [List.pairwise_map]
        exact hpairG.imp (fun hxy => by
          rcases hxy with h | h
          · exact Or.inl h
          · exact Or.inr h)

end Rag
